import Mathlib

/-!
Verification of the clustering-and-conversation core of the repository
(`backend/generateResponses.py`) against its natural-language specification.

The Python code is shallowly embedded:

* numbers are embedded as rationals (`ℚ`); `math.sqrt` (an irrational-valued
  external function) is modelled by an explicit parameter `sqrtq : ℚ → ℚ`,
  constrained where a property genuinely depends on real-square-root behaviour
  (e.g. `sqrtq s * sqrtq s = s` at the relevant argument);
* the external OpenAI embedding call `get_embeddings` is modelled by an oracle
  `embedFn : List String → List (List ℚ)` (the provider contract promises a
  result of the same length and order as its input);
* `random.sample` is modelled by oracles returning the chosen centers
  (`sampleAuto : ℕ → List EChar` for the per-K draws inside
  `auto_detect_num_clusters`, `sampleMain : List EChar → ℕ → List EChar` for
  the final draw in `cluster_answers`); `random.sample`'s contract (a result of
  exactly the requested length) becomes an explicit hypothesis where needed;
* `random.choices` (the passion-weighted draw in `weighted_random_choice`) is
  modelled by an oracle `pick : List ℚ → ℕ` mapping the computed weight list to
  a chosen index, reduced modulo the candidate count: every candidate has
  weight `passion + 0.1 > 0`, so every candidate is selectable and the oracle
  ranges over exactly the support of the real distribution;
* the Python dict mutation `char['temp_cluster'] = ...` always (re)assigns
  every character from the current centers before anything reads it, so the
  assignment is embedded as the pure function `assignChar` of the current
  centers, and one k-means iteration becomes `updateAllCenters`;
* text generation, Redis bookkeeping and HTTP transport are out of scope
  (spec sections 1 and 6); `handle_conversation` is embedded as its
  speaker-scheduling skeleton, with the generated texts supplied by oracles.
-/

/-- A respondent record (`characters_data` entry): the fields of the Redis
character dict that the clustering / conversation core reads. -/
structure Character where
  id : Int
  short_answer : String
  passion : ℚ
deriving DecidableEq, Repr

/-- A respondent together with the embedding attached to it by
`cluster_answers` (`char['embedding'] = embeddings[i]`). -/
structure EChar where
  char : Character
  embedding : List ℚ
deriving DecidableEq, Repr

/-- One entry of the cluster summary list built by `cluster_answers`. -/
structure ClusterRec where
  id : ℕ
  representative_answer : String
  character_ids : List Int
  count : ℕ
  avg_passion : ℚ
  sample_responses : List String
deriving DecidableEq, Repr

/-- The outlier summary built by `cluster_answers`. -/
structure OutlierRec where
  character_ids : List Int
  count : ℕ
  answers : List String
deriving DecidableEq, Repr

/-- The result dict of `cluster_answers`. -/
structure ClusterResult where
  clusters : List ClusterRec
  outliers : OutlierRec
  num_clusters : ℕ
deriving DecidableEq, Repr

/-- One entry of `conversation_log` in `handle_conversation` (the fields the
scheduling claims are about; `character_name` is Redis bookkeeping). -/
structure Turn where
  character_id : Int
  text : String
deriving DecidableEq, Repr

/-- Python's `str.strip()` as used in the validity test
`c.get('short_answer', '').strip()`: drop leading and trailing whitespace.
Implemented by structural recursion over the character list (Lean's own
`String.trim` is defined by well-founded recursion on byte positions, which
concrete evaluation cannot unfold). -/
def pyStrip (s : String) : String :=
  ⟨((s.data.dropWhile Char.isWhitespace).reverse.dropWhile Char.isWhitespace).reverse⟩

/-- `cosine_similarity(vec1, vec2)` from `generateResponses.py`:
dot product over the zip of the two vectors, magnitudes via `math.sqrt` of the
sums of squares (modelled by the parameter `sqrtq`), returning `0.0` when
either magnitude is zero. -/
def cosine_similarity (sqrtq : ℚ → ℚ) (vec1 vec2 : List ℚ) : ℚ :=
  let dot_product := (List.zipWith (fun a b => a * b) vec1 vec2).sum
  let magnitude1 := sqrtq ((vec1.map (fun a => a * a)).sum)
  let magnitude2 := sqrtq ((vec2.map (fun b => b * b)).sum)
  if magnitude1 = 0 ∨ magnitude2 = 0 then 0
  else dot_product / (magnitude1 * magnitude2)

/-- The body of the `for i in range(n)` loop of `calculate_silhouette_score`:
`some s` when index `i` contributes silhouette value `s` to
`silhouette_scores`, `none` when the loop `continue`s at `i`.
Out-of-range indexing (impossible in the source, where the three lists share
their length) is totalised with defaults. -/
def silhouette_contribution (sqrtq : ℚ → ℚ) (n : ℕ) (asg : List ℤ)
    (embs : List (List ℚ)) (i : ℕ) : Option ℚ :=
  let ai := asg.getD i (-1)
  if ai = -1 then none
  else
    let same := (List.range n).filter (fun j => asg.getD j (-1) = ai ∧ j ≠ i)
    if same = [] then none
    else
      let a := ((same.map
        (fun j => 1 - cosine_similarity sqrtq (embs.getD i []) (embs.getD j []))).sum)
        / (same.length : ℚ)
      let other_clusters := (asg.filter (fun c => c ≠ ai ∧ c ≠ -1)).dedup
      if other_clusters = [] then none
      else
        let b_values := other_clusters.filterMap (fun cid =>
          let cluster_points := (List.range n).filter (fun j => asg.getD j (-1) = cid)
          if cluster_points = [] then none
          else some (((cluster_points.map
            (fun j => 1 - cosine_similarity sqrtq (embs.getD i []) (embs.getD j []))).sum)
            / (cluster_points.length : ℚ)))
        match b_values with
        | [] => none
        | b0 :: brest =>
          let b := brest.foldl min b0
          some (if max a b > 0 then (b - a) / max a b else 0)

/-- `calculate_silhouette_score(characters_data, cluster_assignments,
embeddings)`: mean of the per-respondent silhouette values, `0` when `n ≤ 1`
or when no respondent contributes. -/
def calculate_silhouette_score (sqrtq : ℚ → ℚ) (characters_data : List EChar)
    (cluster_assignments : List ℤ) (embeddings : List (List ℚ)) : ℚ :=
  let n := characters_data.length
  if n ≤ 1 then 0
  else
    let silhouette_scores :=
      (List.range n).filterMap
        (silhouette_contribution sqrtq n cluster_assignments embeddings)
    if silhouette_scores = [] then 0
    else silhouette_scores.sum / (silhouette_scores.length : ℚ)

/-- The per-character assignment step shared by `cluster_answers` and the trial
clustering in `auto_detect_num_clusters`: argmax (strict improvement, first
index wins ties, initial best `(-1, 0)`) of cosine similarity to the current
centers, assigned only when that maximum reaches the threshold, else the
outlier sentinel `-1` (`char['temp_cluster'] = best_cluster if max_similarity
>= threshold else -1`). -/
def assignChar (sqrtq : ℚ → ℚ) (threshold : ℚ) (centers : List EChar)
    (c : EChar) : ℤ :=
  let best := centers.enum.foldl
    (fun (acc : ℚ × ℕ) p =>
      let similarity := cosine_similarity sqrtq c.embedding p.2.embedding
      if similarity > acc.1 then (similarity, p.1) else acc)
    ((-1 : ℚ), 0)
  if best.1 ≥ threshold then (best.2 : ℤ) else -1

/-- `mean_embedding`: the coordinate-wise mean of the members' embeddings,
indexed over the first member's embedding length (the source assumes all
embeddings share their length, per the embedding-provider contract; stray
coordinates are totalised with `0`). -/
def mean_embedding (cluster_members : List EChar) : List ℚ :=
  match cluster_members with
  | [] => []
  | m :: _ =>
    (List.range m.embedding.length).map (fun j =>
      ((cluster_members.map (fun c => c.embedding.getD j 0)).sum)
        / (cluster_members.length : ℚ))

/-- The center-update step of the final clustering in `cluster_answers`:
among the members, the first one whose similarity to the mean embedding
strictly exceeds all earlier ones (`best_sim` starts at `-1`, `best_char` at
`None`); the old center is kept when there are no members or `best_char`
stays `None`. -/
def updateCenterStep (sqrtq : ℚ → ℚ) (cluster_members : List EChar)
    (old : EChar) : EChar :=
  match cluster_members with
  | [] => old
  | _ =>
    let mean := mean_embedding cluster_members
    let r := cluster_members.foldl
      (fun (acc : ℚ × Option EChar) c =>
        let sim := cosine_similarity sqrtq c.embedding mean
        if sim > acc.1 then (sim, some c) else acc)
      ((-1 : ℚ), none)
    match r.2 with
    | some best_char => best_char
    | none => old

/-- One full iteration of the 5-round k-means loop of `cluster_answers`:
every character is (re)assigned from the current centers, then every center
index is updated from its members (`for i in range(num_clusters)`; the center
list always has length `num_clusters` because `random.sample` returned exactly
that many, so the index range is the center list's range). -/
def updateAllCenters (sqrtq : ℚ → ℚ) (threshold : ℚ) (valid_chars : List EChar)
    (centers : List EChar) : List EChar :=
  centers.enum.map (fun p =>
    updateCenterStep sqrtq
      (valid_chars.filter (fun c => assignChar sqrtq threshold centers c = (p.1 : ℤ)))
      p.2)

/-- The center-update step of the quick trial clustering in
`auto_detect_num_clusters`: `max(cluster_members, key=similarity to mean)` —
the first member attaining the maximal similarity — whenever the member list
is non-empty. -/
def trialUpdateCenter (sqrtq : ℚ → ℚ) (cluster_members : List EChar)
    (old : EChar) : EChar :=
  match cluster_members with
  | [] => old
  | m :: ms =>
    let mean := mean_embedding (m :: ms)
    ms.foldl (fun best c =>
      if cosine_similarity sqrtq c.embedding mean >
          cosine_similarity sqrtq best.embedding mean then c else best) m

/-- One iteration of the 3-round trial clustering of
`auto_detect_num_clusters` (threshold hard-coded to `0.6`). -/
def trialUpdateAll (sqrtq : ℚ → ℚ) (characters_data : List EChar)
    (centers : List EChar) : List EChar :=
  centers.enum.map (fun p =>
    trialUpdateCenter sqrtq
      (characters_data.filter
        (fun c => assignChar sqrtq (3 / 5) centers c = (p.1 : ℤ)))
      p.2)

/-- The silhouette score the `k`-loop of `auto_detect_num_clusters` computes
for one candidate `k`: three assign-update rounds from the sampled centers
(so the scored assignment is the one taken against the centers after two full
rounds), then `calculate_silhouette_score` on the resulting
`temp_cluster` list. -/
def trialScore (sqrtq : ℚ → ℚ) (sampleAuto : ℕ → List EChar)
    (characters_data : List EChar) (embeddings : List (List ℚ)) (k : ℕ) : ℚ :=
  let centers := (fun cs => trialUpdateAll sqrtq characters_data cs)^[2] (sampleAuto k)
  calculate_silhouette_score sqrtq characters_data
    (characters_data.map (fun c => assignChar sqrtq (3 / 5) centers c))
    embeddings

/-- `auto_detect_num_clusters(characters_data, embeddings, min_clusters,
max_clusters)`: returns `max(1, n // 2)` when `n < min_clusters`; otherwise
clamps `max_clusters` to `min(max_clusters, n // 3, 10)` (forced back up to
`min_clusters` if the clamp fell below it) and keeps the first `k` in
`[min_clusters, clamped]` whose trial silhouette score strictly beats the
running best (initialised to `-1`, so ties keep the earlier `k`). -/
def auto_detect_num_clusters (sqrtq : ℚ → ℚ) (sampleAuto : ℕ → List EChar)
    (characters_data : List EChar) (embeddings : List (List ℚ))
    (min_clusters max_clusters : ℕ) : ℕ :=
  let n := characters_data.length
  if n < min_clusters then max 1 (n / 2)
  else
    let clamped := min (min max_clusters (n / 3)) 10
    let maxc := if clamped < min_clusters then min_clusters else clamped
    (((List.range (maxc + 1 - min_clusters)).map (fun j => j + min_clusters)).foldl
      (fun (acc : ℚ × ℕ) k =>
        let score := trialScore sqrtq sampleAuto characters_data embeddings k
        if score > acc.1 then (score, k) else acc)
      ((-1 : ℚ), min_clusters)).2

/-- Stable insertion of a cluster record into a list already sorted by
descending `count`: the new record goes after every record of greater-or-equal
count, which is exactly where Python's stable `sorted(..., reverse=True)`
leaves it relative to records it ties with. -/
def insertClusterDesc (c : ClusterRec) : List ClusterRec → List ClusterRec
  | [] => [c]
  | x :: xs => if x.count > c.count then x :: insertClusterDesc c xs
               else c :: x :: xs

/-- `sorted(clusters, key=lambda x: x['count'], reverse=True)`: a stable sort
by descending member count (Python's `sorted` is stable, so records with equal
counts keep their original order). -/
def sortClustersDesc : List ClusterRec → List ClusterRec
  | [] => []
  | c :: cs => insertClusterDesc c (sortClustersDesc cs)

/-- A default `EChar` for totalising `cluster_centers[i]` lookups (the source
never indexes out of range, since the center list has length
`num_clusters`). -/
def dfltEChar : EChar := ⟨⟨0, "", 0⟩, []⟩

/-- `cluster_answers(characters_data, num_clusters, similarity_threshold)`:
filter to respondents with a non-whitespace `short_answer`, embed their
answers, auto-detect `K` when none was requested (or shrink an oversized
request to `max(1, len(valid) // 2)`), run five assign-update rounds from the
sampled centers, then build the sorted cluster summaries and the outlier
summary.  The final memberships come from the fifth-round assignment
(taken against the centers after four updates); the representative answers
come from the centers after all five updates. -/
def cluster_answers (sqrtq : ℚ → ℚ) (embedFn : List String → List (List ℚ))
    (sampleAuto : ℕ → List EChar) (sampleMain : List EChar → ℕ → List EChar)
    (characters_data : List Character) (num_clusters : Option ℕ)
    (similarity_threshold : ℚ) : ClusterResult :=
  let valid_chars := characters_data.filter (fun c => pyStrip c.short_answer ≠ "")
  if valid_chars = [] then ⟨[], ⟨[], 0, []⟩, 0⟩
  else
    let short_answers := valid_chars.map (fun c => c.short_answer)
    let embeddings := embedFn short_answers
    let vchars := List.zipWith (fun c e => EChar.mk c e) valid_chars embeddings
    let K := match num_clusters with
      | none => auto_detect_num_clusters sqrtq sampleAuto vchars embeddings 2 8
      | some k0 => if valid_chars.length < k0 then max 1 (valid_chars.length / 2)
                   else k0
    let centers0 := sampleMain vchars K
    let centersPre :=
      (fun cs => updateAllCenters sqrtq similarity_threshold vchars cs)^[4] centers0
    let centersFinal := updateAllCenters sqrtq similarity_threshold vchars centersPre
    let clusters := (List.range K).filterMap (fun (i : ℕ) =>
      let cluster_members := vchars.filter
        (fun c => assignChar sqrtq similarity_threshold centersPre c = (i : ℤ))
      if cluster_members = [] then none
      else some
        { id := i
          representative_answer := (centersFinal.getD i dfltEChar).char.short_answer
          character_ids := cluster_members.map (fun c => c.char.id)
          count := cluster_members.length
          avg_passion := ((cluster_members.map (fun c => c.char.passion)).sum)
            / (cluster_members.length : ℚ)
          sample_responses := (cluster_members.take 3).map (fun c => c.char.short_answer) })
    let outliers := vchars.filter
      (fun c => assignChar sqrtq similarity_threshold centersPre c = -1)
    ⟨sortClustersDesc clusters,
     ⟨outliers.map (fun c => c.char.id), outliers.length,
      outliers.map (fun c => c.char.short_answer)⟩,
     K⟩

/-- `weighted_random_choice(characters_data, exclude_id)`: filter out the
excluded id (`exclude_id = None` is modelled as `none`, and a Python int id
never equals `None`, so nothing is excluded then), return `None` when no
candidate remains, otherwise draw one candidate with weights
`passion + 0.1`.  The weighted draw of `random.choices` is modelled by the
oracle `pick`, which sees the weight list and yields an index into the
candidate list (reduced modulo its length): every weight is positive for
passions in `[0, 1]`, so every candidate is in the support of the real
distribution. -/
def weighted_random_choice (pick : List ℚ → ℕ) (characters_data : List Character)
    (exclude_id : Option Int) : Option Character :=
  let candidates := characters_data.filter (fun c => some c.id ≠ exclude_id)
  match candidates with
  | [] => none
  | c :: cs =>
    let weights := (c :: cs).map (fun x => x.passion + 1 / 10)
    some ((c :: cs).getD (pick weights % (c :: cs).length) c)

/-- The `while comment_count < 4` loop of `handle_conversation`: choose the
next speaker excluding the previous one, stop (`break`) when nobody is
eligible, otherwise append the reply turn and continue with the budget
decremented.  `reply` is the external text generator for reply turns. -/
def convLoop (pick : List ℚ → ℕ) (reply : Int → String)
    (characters_data : List Character) :
    ℕ → Int → List Turn → List Turn
  | 0, _, log => log
  | Nat.succ budget, last_speaker_id, log =>
    match weighted_random_choice pick characters_data (some last_speaker_id) with
    | none => log
    | some next_speaker =>
      convLoop pick reply characters_data budget next_speaker.id
        (log ++ [⟨next_speaker.id, reply next_speaker.id⟩])

/-- The speaker-scheduling skeleton of `handle_conversation`: the first
speaker is a weighted choice over all participants (nothing excluded), the
remaining at most three turns come from `convLoop` (4 total comments).
`none` models the `TypeError` the source would raise if the first choice
returned `None` (only possible with an empty participant list, which the
route has already rejected).  `firstResp` and `reply` are the external text
generators for the opening and reply turns. -/
def handle_conversation (pick : List ℚ → ℕ) (firstResp reply : Int → String)
    (characters_data : List Character) : Option (List Turn) :=
  match weighted_random_choice pick characters_data none with
  | none => none
  | some current_speaker =>
    some (convLoop pick reply characters_data 3 current_speaker.id
      [⟨current_speaker.id, firstResp current_speaker.id⟩])

/-! ## Helper lemmas -/

lemma zipWith_mul_self (v : List ℚ) :
    List.zipWith (fun a b => a * b) v v = v.map (fun a => a * a) := by
  induction v with
  | nil => rfl
  | cons x xs ih => simp [ih]

lemma getD_neg_one_mem {l : List ℤ} {i : ℕ} (h : l.getD i (-1) ≠ -1) :
    l.getD i (-1) ∈ l := by
  rcases Nat.lt_or_ge i l.length with hlt | hge
  · rw [List.getD_eq_getElem _ _ hlt]
    exact List.get_mem l i hlt
  · exact absurd (List.getD_eq_default _ _ hge) h

/-- The loop body of `calculate_silhouette_score` contributes nothing at `i`
when every non-outlier assignment shares the single value `a0` (there is then
no other cluster to provide a `b`-term). -/
lemma silhouette_contribution_single_cluster (sqrtq : ℚ → ℚ) (n : ℕ)
    (asg : List ℤ) (embs : List (List ℚ)) (i : ℕ) (a0 : ℤ)
    (h : ∀ x ∈ asg, x ≠ -1 → x = a0) :
    silhouette_contribution sqrtq n asg embs i = none := by
  simp only [silhouette_contribution]
  by_cases hai : asg.getD i (-1) = -1
  · rw [if_pos hai]
  · rw [if_neg hai]
    have ha0 : asg.getD i (-1) = a0 := h _ (getD_neg_one_mem hai) hai
    have hfil : asg.filter (fun c => c ≠ asg.getD i (-1) ∧ c ≠ -1) = [] := by
      rw [List.filter_eq_nil_iff]
      intro x hx
      simp only [decide_eq_true_eq]
      intro hcon
      exact hcon.1 ((h x hx hcon.2).trans ha0.symm)
    by_cases hsame :
        (List.range n).filter (fun j => asg.getD j (-1) = asg.getD i (-1) ∧ j ≠ i) = []
    · rw [if_pos hsame]
    · rw [if_neg hsame, hfil]
      simp

/-- The loop body of `calculate_silhouette_score` contributes nothing at `i`
when no non-outlier shares its cluster with another respondent (the `a`-term
has no data: `same_cluster` is empty). -/
lemma silhouette_contribution_singletons (sqrtq : ℚ → ℚ) (n : ℕ)
    (asg : List ℤ) (embs : List (List ℚ)) (i : ℕ) (hi : i < n)
    (h : ∀ i' : ℕ, i' < n → asg.getD i' (-1) ≠ -1 →
         ∀ j : ℕ, j < n → j ≠ i' → asg.getD j (-1) ≠ asg.getD i' (-1)) :
    silhouette_contribution sqrtq n asg embs i = none := by
  simp only [silhouette_contribution]
  by_cases hai : asg.getD i (-1) = -1
  · rw [if_pos hai]
  · rw [if_neg hai]
    have hsame :
        (List.range n).filter (fun j => asg.getD j (-1) = asg.getD i (-1) ∧ j ≠ i) = [] := by
      rw [List.filter_eq_nil_iff]
      intro j hj
      rw [List.mem_range] at hj
      simp only [decide_eq_true_eq]
      intro hcon
      exact h i hi hai j hj hcon.2 hcon.1
    rw [if_pos hsame]

/-! ## C10 -/

/-- C10: `cosine_similarity` is total — whenever either input vector's
magnitude is zero (`magnitude1 == 0 or magnitude2 == 0`), it returns `0.0`
via the guard instead of dividing; the division only happens when both
magnitudes are non-zero. -/
theorem cosine_similarity_zero_magnitude (sqrtq : ℚ → ℚ) (vec1 vec2 : List ℚ)
    (h : sqrtq ((vec1.map (fun a => a * a)).sum) = 0 ∨
         sqrtq ((vec2.map (fun b => b * b)).sum) = 0) :
    cosine_similarity sqrtq vec1 vec2 = 0 := by
  simp only [cosine_similarity]
  rw [if_pos h]

theorem cosine_similarity_zero_magnitude_witness :
    cosine_similarity (fun x => x) [(0 : ℚ)] [(1 : ℚ)] = 0 :=
  cosine_similarity_zero_magnitude (fun x => x) [0] [1] (Or.inl (by norm_num))

/-! ## C8 -/

/-- C8 counterexample: the claim "cosine_similarity(v, v) = 1.0 for every
vector v" fails at the zero vector.  With the model of `math.sqrt` agreeing
with the real square root at the only evaluated point (`sqrt 0 = 0`), the
zero-magnitude guard fires and the result is `0`, not `1`. -/
theorem cosine_similarity_self_zero_vector_cex :
    cosine_similarity (fun x => x) [(0 : ℚ)] [(0 : ℚ)] ≠ 1 := by
  norm_num [cosine_similarity]

/-- C8 (amended): `cosine_similarity` is symmetric for all inputs, and
`cosine_similarity(v, v) = 1` for every vector `v` of non-zero magnitude —
the hypotheses say the modelled `math.sqrt` returns a genuine non-zero square
root of `v`'s sum of squares, which is exactly the non-degenerate case of the
original claim (the zero vector instead hits the zero-magnitude guard, see
the counterexample). -/
theorem cosine_similarity_symm_and_self (sqrtq : ℚ → ℚ) (v a b : List ℚ)
    (h1 : sqrtq ((v.map (fun x => x * x)).sum) * sqrtq ((v.map (fun x => x * x)).sum)
        = (v.map (fun x => x * x)).sum)
    (h2 : sqrtq ((v.map (fun x => x * x)).sum) ≠ 0) :
    cosine_similarity sqrtq a b = cosine_similarity sqrtq b a ∧
    cosine_similarity sqrtq v v = 1 := by
  constructor
  · simp only [cosine_similarity]
    by_cases hc : sqrtq ((a.map (fun x => x * x)).sum) = 0 ∨
        sqrtq ((b.map (fun x => x * x)).sum) = 0
    · rw [if_pos hc, if_pos (Or.symm hc)]
    · rw [if_neg hc, if_neg (fun hc2 => hc (Or.symm hc2))]
      rw [List.zipWith_comm_of_comm _ mul_comm a b, mul_comm]
  · simp only [cosine_similarity, zipWith_mul_self]
    rw [if_neg (by simp [h2])]
    rw [h1]
    exact div_self (h1 ▸ mul_ne_zero h2 h2)

theorem cosine_similarity_symm_and_self_witness :
    cosine_similarity (fun _ => 3) [(1 : ℚ)] [(2 : ℚ)] =
        cosine_similarity (fun _ => 3) [(2 : ℚ)] [(1 : ℚ)] ∧
    cosine_similarity (fun _ => 3) [(3 : ℚ)] [(3 : ℚ)] = 1 :=
  cosine_similarity_symm_and_self (fun _ => 3) [3] [1] [2]
    (by norm_num) (by norm_num)

/-! ## C7 -/

/-- C7: `calculate_silhouette_score` returns `0` whenever no respondent
qualifies for scoring: when there is at most one respondent (`n <= 1`), when
all non-outlier respondents share one single cluster (no other cluster ever
supplies a `b`-term), or when every cluster is a singleton (no `same_cluster`
partner ever supplies an `a`-term). -/
theorem calculate_silhouette_score_degenerate (sqrtq : ℚ → ℚ)
    (characters_data : List EChar) (asg : List ℤ) (embs : List (List ℚ))
    (h : characters_data.length ≤ 1 ∨
         (∃ a0 : ℤ, ∀ x ∈ asg, x ≠ -1 → x = a0) ∨
         (∀ i : ℕ, i < characters_data.length → asg.getD i (-1) ≠ -1 →
            ∀ j : ℕ, j < characters_data.length → j ≠ i →
              asg.getD j (-1) ≠ asg.getD i (-1))) :
    calculate_silhouette_score sqrtq characters_data asg embs = 0 := by
  simp only [calculate_silhouette_score]
  by_cases hn : characters_data.length ≤ 1
  · rw [if_pos hn]
  · rw [if_neg hn]
    have hnil : (List.range characters_data.length).filterMap
        (silhouette_contribution sqrtq characters_data.length asg embs) = [] := by
      rw [List.filterMap_eq_nil_iff]
      intro i hi
      rw [List.mem_range] at hi
      rcases h with h | ⟨a0, h2⟩ | h3
      · exact absurd h hn
      · exact silhouette_contribution_single_cluster sqrtq _ asg embs i a0 h2
      · exact silhouette_contribution_singletons sqrtq _ asg embs i hi h3
    rw [hnil]
    simp

theorem calculate_silhouette_score_degenerate_witness :
    calculate_silhouette_score (fun _ => 0) [dfltEChar, dfltEChar]
      [0, 0] [[], []] = 0 :=
  calculate_silhouette_score_degenerate (fun _ => 0) [dfltEChar, dfltEChar]
    [0, 0] [[], []]
    (Or.inr (Or.inl ⟨0, by decide⟩))

/-! ## C9 -/

/-- C9: when every respondent's `short_answer` strips to the empty string,
`cluster_answers` returns successfully with zero clusters, an empty outlier
set and `num_clusters = 0` rather than raising. -/
theorem cluster_answers_empty_input (sqrtq : ℚ → ℚ)
    (embedFn : List String → List (List ℚ)) (sampleAuto : ℕ → List EChar)
    (sampleMain : List EChar → ℕ → List EChar)
    (characters_data : List Character) (num_clusters : Option ℕ) (τ : ℚ)
    (h : ∀ c ∈ characters_data, pyStrip c.short_answer = "") :
    cluster_answers sqrtq embedFn sampleAuto sampleMain characters_data
      num_clusters τ = ⟨[], ⟨[], 0, []⟩, 0⟩ := by
  have hv : characters_data.filter (fun c => pyStrip c.short_answer ≠ "") = [] := by
    rw [List.filter_eq_nil_iff]
    intro c hc
    simp only [decide_eq_true_eq]
    intro hcon
    exact hcon (h c hc)
  simp only [cluster_answers]
  rw [if_pos hv]

theorem cluster_answers_empty_input_witness :
    cluster_answers (fun _ => 0) (fun ts => ts.map (fun _ => []))
      (fun _ => []) (fun _ n => List.replicate n dfltEChar)
      [⟨1, " ", 1⟩, ⟨2, "", 0⟩] none 1 = ⟨[], ⟨[], 0, []⟩, 0⟩ :=
  cluster_answers_empty_input (fun _ => 0) (fun ts => ts.map (fun _ => []))
    (fun _ => []) (fun _ n => List.replicate n dfltEChar)
    [⟨1, " ", 1⟩, ⟨2, "", 0⟩] none 1 (by decide)

/-! ## C2 -/

/-- C2 counterexample: with exactly two valid respondents and requested
`K = 2` (so `K ≥ numValid` holds with equality), `cluster_answers` keeps
`K = 2` instead of reducing it to `max 1 (2 / 2) = 1`: the source only
reduces when `len(valid_chars) < num_clusters`, i.e. when the request is
strictly greater than the number of valid respondents. -/
theorem cluster_answers_K_eq_numValid_cex :
    (cluster_answers (fun _ => 0) (fun ts => ts.map (fun _ => []))
        (fun _ => []) (fun _ n => List.replicate n dfltEChar)
        [⟨1, "a", 1⟩, ⟨2, "b", 0⟩] (some 2) 1).num_clusters ≠ max 1 (2 / 2) := by
  decide

/-- C2 (amended): whenever the requested cluster count is *strictly greater*
than the number of valid (non-empty-answer) respondents, `cluster_answers`
reduces it to `max 1 (numValid / 2)` before running, and reports the reduced
count in `num_clusters`. -/
theorem cluster_answers_reduces_oversized_K (sqrtq : ℚ → ℚ)
    (embedFn : List String → List (List ℚ)) (sampleAuto : ℕ → List EChar)
    (sampleMain : List EChar → ℕ → List EChar)
    (characters_data : List Character) (k0 : ℕ) (τ : ℚ)
    (h1 : characters_data.filter (fun c => pyStrip c.short_answer ≠ "") ≠ [])
    (h2 : (characters_data.filter (fun c => pyStrip c.short_answer ≠ "")).length < k0) :
    (cluster_answers sqrtq embedFn sampleAuto sampleMain characters_data
        (some k0) τ).num_clusters =
      max 1 ((characters_data.filter (fun c => pyStrip c.short_answer ≠ "")).length / 2) := by
  simp only [cluster_answers]
  rw [if_neg h1]
  show (if (characters_data.filter (fun c => pyStrip c.short_answer ≠ "")).length < k0
      then max 1 ((characters_data.filter (fun c => pyStrip c.short_answer ≠ "")).length / 2)
      else k0) =
    max 1 ((characters_data.filter (fun c => pyStrip c.short_answer ≠ "")).length / 2)
  rw [if_pos h2]

theorem cluster_answers_reduces_oversized_K_witness :
    (cluster_answers (fun _ => 0) (fun ts => ts.map (fun _ => []))
        (fun _ => []) (fun _ n => List.replicate n dfltEChar)
        [⟨1, "a", 1⟩] (some 5) 1).num_clusters =
      max 1 ((([⟨1, "a", 1⟩] : List Character).filter
        (fun c => pyStrip c.short_answer ≠ "")).length / 2) :=
  cluster_answers_reduces_oversized_K (fun _ => 0) (fun ts => ts.map (fun _ => []))
    (fun _ => []) (fun _ n => List.replicate n dfltEChar)
    [⟨1, "a", 1⟩] 5 1 (by decide) (by decide)

/-! ## Conversation scheduler lemmas -/

/-- A successful `weighted_random_choice` returns one of the candidates:
a member of `characters_data` whose id differs from the excluded one. -/
lemma weighted_random_choice_mem (pick : List ℚ → ℕ) (chars : List Character)
    (ex : Option Int) (c : Character)
    (h : weighted_random_choice pick chars ex = some c) :
    c ∈ chars ∧ some c.id ≠ ex := by
  unfold weighted_random_choice at h
  rcases hcs : chars.filter (fun x => some x.id ≠ ex) with _ | ⟨c0, cs⟩
  · rw [hcs] at h; cases h
  · rw [hcs] at h
    have h2 : (c0 :: cs).getD
        (pick ((c0 :: cs).map (fun x => x.passion + 1 / 10)) % (c0 :: cs).length) c0
          = c := Option.some.inj h
    have hlt : pick ((c0 :: cs).map (fun x => x.passion + 1 / 10)) % (c0 :: cs).length
        < (c0 :: cs).length := Nat.mod_lt _ (by simp)
    have hmem : c ∈ c0 :: cs := by
      rw [← h2, List.getD_eq_getElem _ _ hlt]
      exact List.get_mem _ _ hlt
    have hmf : c ∈ chars.filter (fun x => some x.id ≠ ex) := by rw [hcs]; exact hmem
    rw [List.mem_filter] at hmf
    exact ⟨hmf.1, by simpa using hmf.2⟩

/-- `weighted_random_choice` returns `None` exactly when the candidate pool
(after exclusion) is empty. -/
lemma weighted_random_choice_eq_none (pick : List ℚ → ℕ) (chars : List Character)
    (ex : Option Int) :
    weighted_random_choice pick chars ex = none ↔
      chars.filter (fun c => some c.id ≠ ex) = [] := by
  unfold weighted_random_choice
  rcases hcs : chars.filter (fun c => some c.id ≠ ex) with _ | ⟨c0, cs⟩ <;>
    rw [hcs] <;> simp

/-- Definitional unfolding of one step of the conversation loop. -/
lemma convLoop_succ (pick : List ℚ → ℕ) (reply : Int → String)
    (chars : List Character) (n : ℕ) (last : Int) (log : List Turn) :
    convLoop pick reply chars (n + 1) last log =
      match weighted_random_choice pick chars (some last) with
      | none => log
      | some nxt =>
        convLoop pick reply chars n nxt.id (log ++ [Turn.mk nxt.id (reply nxt.id)]) := rfl

/-- Every log produced by the conversation loop keeps adjacent speakers
distinct, as long as the incoming log does and ends with the excluded
speaker. -/
lemma convLoop_chain (pick : List ℚ → ℕ) (reply : Int → String)
    (chars : List Character) (budget : ℕ) :
    ∀ (last : Int) (log : List Turn),
      log.Chain' (fun a b => a.character_id ≠ b.character_id) →
      log.getLast?.map Turn.character_id = some last →
      (convLoop pick reply chars budget last log).Chain'
        (fun a b => a.character_id ≠ b.character_id) := by
  induction budget with
  | zero => intro last log hch _; simpa [convLoop] using hch
  | succ n ih =>
    intro last log hch hlast
    rw [convLoop_succ]
    rcases hw : weighted_random_choice pick chars (some last) with _ | nxt
    · exact hch
    · have hne := (weighted_random_choice_mem pick chars (some last) nxt hw).2
      have hneq : nxt.id ≠ last := by simpa using hne
      have hch2 : (log ++ [Turn.mk nxt.id (reply nxt.id)]).Chain'
          (fun a b => a.character_id ≠ b.character_id) := by
        rw [List.chain'_append]
        refine ⟨hch, List.chain'_singleton _, ?_⟩
        intro x hx y hy
        simp only [List.head?_cons, Option.mem_def, Option.some.injEq] at hy
        subst hy
        have hx2 : x.character_id = last := by
          rw [Option.mem_def] at hx
          rw [hx] at hlast
          simpa using hlast
        rw [hx2]
        exact fun he => hneq he.symm
      have hlast2 : (log ++ [Turn.mk nxt.id (reply nxt.id)]).getLast?.map Turn.character_id
          = some nxt.id := by
        rw [List.getLast?_concat]
        rfl
      exact ih nxt.id _ hch2 hlast2

/-! ## C3 -/

/-- C3: in every conversation log produced by `handle_conversation`, the
speaker of each turn differs from the speaker of the immediately preceding
turn — the next speaker is always drawn from the pool excluding the previous
speaker, and when that pool is empty the loop ends instead of repeating. -/
theorem handle_conversation_no_consecutive_repeats (pick : List ℚ → ℕ)
    (firstResp reply : Int → String) (chars : List Character) (log : List Turn)
    (h : handle_conversation pick firstResp reply chars = some log) :
    log.Chain' (fun a b => a.character_id ≠ b.character_id) := by
  unfold handle_conversation at h
  rcases h0 : weighted_random_choice pick chars none with _ | c0
  · rw [h0] at h; cases h
  · rw [h0] at h
    have hl := Option.some.inj h
    subst hl
    exact convLoop_chain pick reply chars 3 c0.id _ (List.chain'_singleton _) (by simp)

theorem handle_conversation_no_consecutive_repeats_witness :
    handle_conversation (fun _ => 0) (fun _ => "") (fun _ => "")
        [⟨1, "", 1⟩, ⟨2, "", 0⟩] =
      some [⟨1, ""⟩, ⟨2, ""⟩, ⟨1, ""⟩, ⟨2, ""⟩] ∧
    ([⟨1, ""⟩, ⟨2, ""⟩, ⟨1, ""⟩, ⟨2, ""⟩] : List Turn).Chain'
      (fun a b => a.character_id ≠ b.character_id) :=
  ⟨by decide, handle_conversation_no_consecutive_repeats (fun _ => 0) (fun _ => "")
    (fun _ => "") [⟨1, "", 1⟩, ⟨2, "", 0⟩] _ (by decide)⟩

/-! ## C4 -/

/-- C4 counterexample: with a single participant the scheduler does *not*
keep producing turns up to the 4-turn budget — after the opening turn the
candidate pool (excluding the previous speaker) is empty,
`weighted_random_choice` returns `None`, and the loop `break`s, leaving a
1-turn conversation. -/
theorem handle_conversation_single_participant_cex :
    (handle_conversation (fun _ => 0) (fun _ => "opening") (fun _ => "reply")
        [⟨7, "a", 1⟩]).map List.length ≠ some 4 := by decide

/-- C4 (amended): when the candidate pool after excluding the previous
speaker is empty (all participants share the previous speaker's id — in
particular with a single participant), the conversation *ends* after the
opening turn instead of allowing an immediate repeat: exactly one turn is
produced, not four. -/
theorem handle_conversation_empty_pool_ends (pick : List ℚ → ℕ)
    (firstResp reply : Int → String) (chars : List Character)
    (hne : chars ≠ [])
    (hid : ∀ a ∈ chars, ∀ b ∈ chars, a.id = b.id) :
    (handle_conversation pick firstResp reply chars).map List.length = some 1 := by
  rcases h0 : weighted_random_choice pick chars none with _ | c0
  · exfalso
    rw [weighted_random_choice_eq_none] at h0
    have hall : chars.filter (fun c => some c.id ≠ (none : Option Int)) = chars := by
      rw [List.filter_eq_self]
      intro a _
      simp
    rw [hall] at h0
    exact hne h0
  · have hc0 : c0 ∈ chars := (weighted_random_choice_mem pick chars none c0 h0).1
    have hstuck : weighted_random_choice pick chars (some c0.id) = none := by
      rw [weighted_random_choice_eq_none, List.filter_eq_nil_iff]
      intro a ha
      simp [hid a ha c0 hc0]
    unfold handle_conversation
    rw [h0]
    show Option.map List.length
        (some (convLoop pick reply chars 3 c0.id [Turn.mk c0.id (firstResp c0.id)])) =
      some 1
    have h3 : (3 : ℕ) = 2 + 1 := rfl
    rw [h3, convLoop_succ, hstuck]
    rfl

theorem handle_conversation_empty_pool_ends_witness :
    (handle_conversation (fun _ => 0) (fun _ => "x") (fun _ => "y")
        [⟨5, "s", 1⟩]).map List.length = some 1 :=
  handle_conversation_empty_pool_ends (fun _ => 0) (fun _ => "x") (fun _ => "y")
    [⟨5, "s", 1⟩] (by decide) (by decide)

/-! ## Sorting lemmas for C6 -/

lemma insertClusterDesc_perm (c : ClusterRec) (l : List ClusterRec) :
    List.Perm (insertClusterDesc c l) (c :: l) := by
  induction l with
  | nil => exact List.Perm.refl _
  | cons x xs ih =>
    simp only [insertClusterDesc]
    by_cases h : x.count > c.count
    · rw [if_pos h]
      exact (ih.cons x).trans (List.Perm.swap c x xs)
    · rw [if_neg h]

lemma sortClustersDesc_perm (l : List ClusterRec) :
    List.Perm (sortClustersDesc l) l := by
  induction l with
  | nil => exact List.Perm.refl _
  | cons c cs ih =>
    exact (insertClusterDesc_perm c (sortClustersDesc cs)).trans (ih.cons c)

/-- Stable insertion preserves the "descending count, ties by ascending id"
invariant, provided the inserted record's id is below every id already
present (which is how stability manifests: the record being inserted was
originally first). -/
lemma insertClusterDesc_pairwise (c : ClusterRec) (l : List ClusterRec)
    (hl : l.Pairwise (fun a b => b.count ≤ a.count ∧ (a.count = b.count → a.id < b.id)))
    (hid : ∀ x ∈ l, c.id < x.id) :
    (insertClusterDesc c l).Pairwise
      (fun a b => b.count ≤ a.count ∧ (a.count = b.count → a.id < b.id)) := by
  induction l with
  | nil => simp [insertClusterDesc]
  | cons x xs ih =>
    rw [List.pairwise_cons] at hl
    obtain ⟨hx, hxs⟩ := hl
    simp only [insertClusterDesc]
    by_cases hcnt : x.count > c.count
    · rw [if_pos hcnt]
      rw [List.pairwise_cons]
      constructor
      · intro y hy
        rcases List.mem_cons.mp ((insertClusterDesc_perm c xs).mem_iff.mp hy) with rfl | hy2
        · exact ⟨le_of_lt hcnt, fun he => absurd he (by omega)⟩
        · exact hx y hy2
      · exact ih hxs (fun y hy => hid y (List.mem_cons_of_mem x hy))
    · rw [if_neg hcnt]
      have hle : x.count ≤ c.count := le_of_not_lt hcnt
      rw [List.pairwise_cons]
      constructor
      · intro y hy
        rcases List.mem_cons.mp hy with rfl | hy2
        · exact ⟨hle, fun _ => hid y (List.mem_cons_self _ _)⟩
        · exact ⟨le_trans (hx y hy2).1 hle, fun _ => hid y (List.mem_cons_of_mem x hy2)⟩
      · rw [List.pairwise_cons]
        exact ⟨hx, hxs⟩

/-- A stable descending-count sort of a list whose ids are strictly
increasing is pairwise "descending count, ties by ascending id". -/
lemma sortClustersDesc_pairwise (l : List ClusterRec)
    (hl : l.Pairwise (fun a b => a.id < b.id)) :
    (sortClustersDesc l).Pairwise
      (fun a b => b.count ≤ a.count ∧ (a.count = b.count → a.id < b.id)) := by
  induction l with
  | nil => simp [sortClustersDesc]
  | cons c cs ih =>
    rw [List.pairwise_cons] at hl
    simp only [sortClustersDesc]
    apply insertClusterDesc_pairwise _ _ (ih hl.2)
    intro x hx
    exact hl.1 x ((sortClustersDesc_perm cs).mem_iff.mp hx)

/-- The cluster summaries built over `range K` (each carrying its own index
as `id`) have strictly increasing ids. -/
lemma clusters_pairwise_id (K : ℕ) (g : ℕ → Option ClusterRec)
    (hg : ∀ i rec, g i = some rec → rec.id = i) :
    ((List.range K).filterMap g).Pairwise (fun a b => a.id < b.id) := by
  rw [List.pairwise_filterMap]
  apply List.Pairwise.imp ?_ (List.pairwise_lt_range K)
  intro i j hij b hb b2 hb2
  rw [hg i b (Option.mem_def.mp hb), hg j b2 (Option.mem_def.mp hb2)]
  exact hij

/-! ## C6 -/

/-- C6: the clusters list returned by `cluster_answers` is sorted in
descending order of member `count`, and clusters with equal counts appear in
ascending order of their cluster `id` (Python's `sorted(..., reverse=True)`
is stable and the pre-sort list is in ascending index order). -/
theorem cluster_answers_clusters_sorted (sqrtq : ℚ → ℚ)
    (embedFn : List String → List (List ℚ)) (sampleAuto : ℕ → List EChar)
    (sampleMain : List EChar → ℕ → List EChar)
    (characters_data : List Character) (num_clusters : Option ℕ) (τ : ℚ) :
    ((cluster_answers sqrtq embedFn sampleAuto sampleMain characters_data
        num_clusters τ).clusters).Pairwise
      (fun a b => b.count ≤ a.count ∧ (a.count = b.count → a.id < b.id)) := by
  simp only [cluster_answers]
  by_cases hv : characters_data.filter (fun c => pyStrip c.short_answer ≠ "") = []
  · rw [if_pos hv]
    simp
  · rw [if_neg hv]
    refine sortClustersDesc_pairwise _ (clusters_pairwise_id _ _ ?_)
    intro i rec hrec
    split at hrec
    · cases hrec
    · have h2 := Option.some.inj hrec
      subst h2
      rfl

/-! ## Best-score fold lemma for C5 -/

/-- Behaviour of the strict-improvement best-score fold in
`auto_detect_num_clusters` (`if score > best_score: best_score, best_k = score, k`):
over a sorted candidate list whose elements all dominate the initial index,
the fold's score bounds every candidate's score, its index comes from the
list (or is the initial one), a candidate tying the final score is at or
after the final index unless its score did not beat the initial score, and a
fold that never improved kept the initial index. -/
lemma foldl_best_spec (f : ℕ → ℚ) :
    ∀ (l : List ℕ) (b : ℚ) (j : ℕ),
      (∀ k ∈ l, j ≤ k) → l.Pairwise (fun a a2 => a ≤ a2) →
      b ≤ (List.foldl (fun acc k => if f k > acc.1 then (f k, k) else acc) (b, j) l).1 ∧
      (∀ k ∈ l,
        f k ≤ (List.foldl (fun acc k => if f k > acc.1 then (f k, k) else acc) (b, j) l).1) ∧
      (List.foldl (fun acc k => if f k > acc.1 then (f k, k) else acc) (b, j) l = (b, j) ∨
        ((List.foldl (fun acc k => if f k > acc.1 then (f k, k) else acc) (b, j) l).2 ∈ l ∧
          f (List.foldl (fun acc k => if f k > acc.1 then (f k, k) else acc) (b, j) l).2 =
            (List.foldl (fun acc k => if f k > acc.1 then (f k, k) else acc) (b, j) l).1)) ∧
      (∀ k ∈ l,
        f k = (List.foldl (fun acc k => if f k > acc.1 then (f k, k) else acc) (b, j) l).1 →
        f k ≤ b ∨
          (List.foldl (fun acc k => if f k > acc.1 then (f k, k) else acc) (b, j) l).2 ≤ k) ∧
      ((List.foldl (fun acc k => if f k > acc.1 then (f k, k) else acc) (b, j) l).1 = b →
        (List.foldl (fun acc k => if f k > acc.1 then (f k, k) else acc) (b, j) l).2 = j) := by
  intro l
  induction l with
  | nil =>
    intro b j _ _
    exact ⟨le_refl b, by simp, Or.inl rfl, by simp, fun _ => rfl⟩
  | cons k0 t ih =>
    intro b j hj hp
    rw [List.pairwise_cons] at hp
    obtain ⟨hk0t, hpt⟩ := hp
    simp only [List.foldl_cons]
    by_cases hgt : f k0 > b
    · rw [if_pos (show f k0 > (b, j).1 from hgt)]
      obtain ⟨ih1, ih2, ih3, ih4, ih5⟩ := ih (f k0) k0 hk0t hpt
      refine ⟨le_of_lt (lt_of_lt_of_le hgt ih1), ?_, ?_, ?_, ?_⟩
      · intro k hk
        rcases List.mem_cons.mp hk with rfl | hk2
        · exact ih1
        · exact ih2 k hk2
      · rcases ih3 with hr | hr
        · refine Or.inr ?_
          rw [hr]
          exact ⟨List.mem_cons_self _ _, rfl⟩
        · exact Or.inr ⟨List.mem_cons_of_mem _ hr.1, hr.2⟩
      · intro k hk hfk
        rcases List.mem_cons.mp hk with rfl | hk2
        · right
          have hr2 : (List.foldl (fun acc k => if f k > acc.1 then (f k, k) else acc)
              (f k, k) t).2 = k := ih5 hfk.symm
          rw [hr2]
        · rcases ih4 k hk2 hfk with hle | hge
          · right
            have hfe : f k = f k0 := le_antisymm hle (hfk ▸ ih1)
            have hr2 : (List.foldl (fun acc k => if f k > acc.1 then (f k, k) else acc)
                (f k0, k0) t).2 = k0 := ih5 (hfk.symm.trans hfe)
            rw [hr2]
            exact hk0t k hk2
          · exact Or.inr hge
      · intro h1
        exact absurd h1 (ne_of_gt (lt_of_lt_of_le hgt ih1))
    · rw [if_neg (show ¬ f k0 > (b, j).1 from hgt)]
      obtain ⟨ih1, ih2, ih3, ih4, ih5⟩ :=
        ih b j (fun k hk => hj k (List.mem_cons_of_mem _ hk)) hpt
      refine ⟨ih1, ?_, ?_, ?_, ih5⟩
      · intro k hk
        rcases List.mem_cons.mp hk with rfl | hk2
        · exact le_trans (not_lt.mp hgt) ih1
        · exact ih2 k hk2
      · rcases ih3 with hr | hr
        · exact Or.inl hr
        · exact Or.inr ⟨List.mem_cons_of_mem _ hr.1, hr.2⟩
      · intro k hk hfk
        rcases List.mem_cons.mp hk with rfl | hk2
        · exact Or.inl (not_lt.mp hgt)
        · exact ih4 k hk2 hfk

/-! ## C5 -/

/-- C5: `auto_detect_num_clusters` with `n` respondents returns
`max 1 (n / 2)` without running any trial clustering when
`n < min_clusters` (in particular, the result is the same for every sampling
oracle); otherwise it tries every `K` from `min_clusters` up to
`max min_clusters (min (min max_clusters (n / 3)) 10)`, the returned `K`
always lies in that clamped range, and — provided each trial score is at
least `-1`, as genuine silhouette scores always are — the returned `K`
attains the highest trial silhouette score, with the first such `K` winning
ties. -/
theorem auto_detect_num_clusters_spec (sqrtq : ℚ → ℚ)
    (sampleAuto : ℕ → List EChar) (characters_data : List EChar)
    (embeddings : List (List ℚ)) (min_clusters max_clusters : ℕ) :
    (characters_data.length < min_clusters →
      (auto_detect_num_clusters sqrtq sampleAuto characters_data embeddings
          min_clusters max_clusters = max 1 (characters_data.length / 2) ∧
        ∀ sampleB : ℕ → List EChar,
          auto_detect_num_clusters sqrtq sampleB characters_data embeddings
              min_clusters max_clusters = max 1 (characters_data.length / 2))) ∧
    (min_clusters ≤ characters_data.length →
      (min_clusters ≤ auto_detect_num_clusters sqrtq sampleAuto characters_data
          embeddings min_clusters max_clusters ∧
        auto_detect_num_clusters sqrtq sampleAuto characters_data embeddings
            min_clusters max_clusters ≤
          max min_clusters (min (min max_clusters (characters_data.length / 3)) 10) ∧
        ((∀ k : ℕ, min_clusters ≤ k →
            k ≤ max min_clusters (min (min max_clusters (characters_data.length / 3)) 10) →
            (-1 : ℚ) ≤ trialScore sqrtq sampleAuto characters_data embeddings k) →
          ∀ k : ℕ, min_clusters ≤ k →
            k ≤ max min_clusters (min (min max_clusters (characters_data.length / 3)) 10) →
            (trialScore sqrtq sampleAuto characters_data embeddings k ≤
              trialScore sqrtq sampleAuto characters_data embeddings
                (auto_detect_num_clusters sqrtq sampleAuto characters_data embeddings
                  min_clusters max_clusters) ∧
            (trialScore sqrtq sampleAuto characters_data embeddings k =
                trialScore sqrtq sampleAuto characters_data embeddings
                  (auto_detect_num_clusters sqrtq sampleAuto characters_data embeddings
                    min_clusters max_clusters) →
              auto_detect_num_clusters sqrtq sampleAuto characters_data embeddings
                  min_clusters max_clusters ≤ k))))) := by
  constructor
  · intro hn
    constructor
    · simp only [auto_detect_num_clusters]
      rw [if_pos hn]
    · intro sampleB
      simp only [auto_detect_num_clusters]
      rw [if_pos hn]
  · intro hn
    have hnlt : ¬ characters_data.length < min_clusters := not_lt.mpr hn
    set f : ℕ → ℚ := fun k => trialScore sqrtq sampleAuto characters_data embeddings k
      with hf
    set clamped := min (min max_clusters (characters_data.length / 3)) 10 with hcl
    set maxc := if clamped < min_clusters then min_clusters else clamped with hmaxc
    have hmaxeq : maxc = max min_clusters clamped := by
      rw [hmaxc]
      rcases Nat.lt_or_ge clamped min_clusters with h | h
      · rw [if_pos h, Nat.max_eq_left (le_of_lt h)]
      · rw [if_neg (not_lt.mpr h), Nat.max_eq_right h]
    have hmge : min_clusters ≤ maxc := by
      rw [hmaxeq]
      exact Nat.le_max_left _ _
    set l := (List.range (maxc + 1 - min_clusters)).map (fun j => j + min_clusters)
      with hl
    have hmem : ∀ k : ℕ, k ∈ l ↔ (min_clusters ≤ k ∧ k ≤ maxc) := by
      intro k
      rw [hl]
      simp only [List.mem_map, List.mem_range]
      constructor
      · rintro ⟨j, hj, rfl⟩
        omega
      · rintro ⟨h1, h2⟩
        exact ⟨k - min_clusters, by omega, by omega⟩
    have hjl : ∀ k ∈ l, min_clusters ≤ k := fun k hk => ((hmem k).mp hk).1
    have hpl : l.Pairwise (fun a a2 => a ≤ a2) := by
      rw [hl, List.pairwise_map]
      exact (List.pairwise_lt_range _).imp (fun h => by omega)
    obtain ⟨hb1, hb2, hb3, hb4, hb5⟩ := foldl_best_spec f l (-1) min_clusters hjl hpl
    have had : auto_detect_num_clusters sqrtq sampleAuto characters_data embeddings
        min_clusters max_clusters =
        (List.foldl (fun acc k => if f k > acc.1 then (f k, k) else acc)
          ((-1 : ℚ), min_clusters) l).2 := by
      simp only [auto_detect_num_clusters]
      rw [if_neg hnlt]
    have hmm : min_clusters ∈ l := (hmem min_clusters).mpr ⟨le_refl _, hmge⟩
    have hr2mem : (List.foldl (fun acc k => if f k > acc.1 then (f k, k) else acc)
        ((-1 : ℚ), min_clusters) l).2 ∈ l := by
      rcases hb3 with hr | hr
      · rw [hr]
        exact hmm
      · exact hr.1
    refine ⟨?_, ?_, ?_⟩
    · rw [had]
      exact ((hmem _).mp hr2mem).1
    · rw [had, ← hmaxeq]
      exact ((hmem _).mp hr2mem).2
    · intro hlow k hk1 hk2
      rw [← hmaxeq] at hk2
      have hkl : k ∈ l := (hmem k).mpr ⟨hk1, hk2⟩
      have hlow2 : ∀ k2 ∈ l, (-1 : ℚ) ≤ f k2 := by
        intro k2 hk2l
        exact hlow k2 ((hmem k2).mp hk2l).1 (hmaxeq ▸ ((hmem k2).mp hk2l).2)
      have hfr : f (List.foldl (fun acc k => if f k > acc.1 then (f k, k) else acc)
          ((-1 : ℚ), min_clusters) l).2 =
          (List.foldl (fun acc k => if f k > acc.1 then (f k, k) else acc)
            ((-1 : ℚ), min_clusters) l).1 := by
        rcases hb3 with hr | hr
        · have h2 := hb2 min_clusters hmm
          rw [hr] at h2
          rw [hr]
          exact le_antisymm h2 (hlow2 _ hmm)
        · exact hr.2
      constructor
      · rw [had]
        exact le_of_le_of_eq (hb2 k hkl) hfr.symm
      · intro hfe
        rw [had] at hfe ⊢
        have hfe2 : f k = (List.foldl (fun acc k => if f k > acc.1 then (f k, k) else acc)
            ((-1 : ℚ), min_clusters) l).1 := hfe.trans hfr
        rcases hb4 k hkl hfe2 with hle | hge
        · have hfm1 : f k = -1 := le_antisymm hle (hlow2 k hkl)
          have hr1 : (List.foldl (fun acc k => if f k > acc.1 then (f k, k) else acc)
              ((-1 : ℚ), min_clusters) l).1 = -1 := hfe2.symm.trans hfm1
          rw [hb5 hr1]
          exact hk1
        · exact hge

theorem auto_detect_num_clusters_spec_witness :
    auto_detect_num_clusters (fun _ => 0) (fun _ => []) [dfltEChar] [] 2 8 =
      max 1 (([dfltEChar] : List EChar).length / 2) ∧
    2 ≤ auto_detect_num_clusters (fun _ => 0) (fun _ => [])
        [dfltEChar, dfltEChar, dfltEChar, dfltEChar] [] 2 8 ∧
    auto_detect_num_clusters (fun _ => 0) (fun _ => [])
        [dfltEChar, dfltEChar, dfltEChar, dfltEChar] [] 2 8 ≤
      max 2 (min (min 8 (([dfltEChar, dfltEChar, dfltEChar, dfltEChar] :
        List EChar).length / 3)) 10) :=
  ⟨((auto_detect_num_clusters_spec (fun _ => 0) (fun _ => []) [dfltEChar] [] 2 8).1
      (by decide)).1,
   ((auto_detect_num_clusters_spec (fun _ => 0) (fun _ => [])
      [dfltEChar, dfltEChar, dfltEChar, dfltEChar] [] 2 8).2 (by decide)).1,
   ((auto_detect_num_clusters_spec (fun _ => 0) (fun _ => [])
      [dfltEChar, dfltEChar, dfltEChar, dfltEChar] [] 2 8).2 (by decide)).2.1⟩

/-! ## Helper lemmas for C1 -/

lemma fst_lt_of_mem_enum {α : Type} {l : List α} {p : ℕ × α} (h : p ∈ l.enum) :
    p.1 < l.length := by
  obtain ⟨i, x⟩ := p
  rw [List.enum_eq_zip_range] at h
  exact List.mem_range.mp (List.of_mem_zip h).1

/-- The inner similarity-argmax fold of `assignChar` keeps its index below
`n` if it starts below `n` and all enumerated indices are below `n`. -/
lemma assign_foldl_snd_lt (sqrtq : ℚ → ℚ) (emb : List ℚ) (n : ℕ) :
    ∀ (l : List (ℕ × EChar)) (acc : ℚ × ℕ), acc.2 < n → (∀ p ∈ l, p.1 < n) →
      (l.foldl (fun (acc : ℚ × ℕ) p =>
        if cosine_similarity sqrtq emb p.2.embedding > acc.1
        then (cosine_similarity sqrtq emb p.2.embedding, p.1) else acc) acc).2 < n := by
  intro l
  induction l with
  | nil => intro acc h _; exact h
  | cons q t ih =>
    intro acc hacc hl
    rw [List.foldl_cons]
    refine ih _ ?_ (fun p hp => hl p (List.mem_cons_of_mem q hp))
    by_cases hq : cosine_similarity sqrtq emb q.2.embedding > acc.1
    · rw [if_pos hq]
      exact hl q (List.mem_cons_self _ _)
    · rw [if_neg hq]
      exact hacc

/-- For thresholds above `-1` (as the default `0.6` is), every assignment is
either the outlier sentinel `-1` or a genuine cluster index below the number
of centers. -/
lemma assignChar_cases (sqrtq : ℚ → ℚ) (τ : ℚ) (centers : List EChar)
    (c : EChar) (hτ : -1 < τ) :
    assignChar sqrtq τ centers c = -1 ∨
      (0 ≤ assignChar sqrtq τ centers c ∧
        assignChar sqrtq τ centers c < (centers.length : ℤ)) := by
  simp only [assignChar]
  by_cases hge : (centers.enum.foldl
      (fun (acc : ℚ × ℕ) p =>
        if cosine_similarity sqrtq c.embedding p.2.embedding > acc.1
        then (cosine_similarity sqrtq c.embedding p.2.embedding, p.1) else acc)
      ((-1 : ℚ), 0)).1 ≥ τ
  · right
    rw [if_pos hge]
    rcases List.eq_nil_or_concat centers with hnil | _
    · exfalso
      subst hnil
      simp only [List.enum_nil, List.foldl_nil] at hge
      exact absurd hge (not_le.mpr hτ)
    · have hlen : 0 < centers.length := by
        rcases centers with _ | ⟨x, xs⟩
        · simp at *
        · simp
      constructor
      · exact Int.natCast_nonneg _
      · have := assign_foldl_snd_lt sqrtq c.embedding centers.length centers.enum
          ((-1 : ℚ), 0) hlen (fun p hp => fst_lt_of_mem_enum hp)
        exact_mod_cast this
  · left
    rw [if_neg hge]

lemma zipWith_mk_map_char :
    ∀ (a : List Character) (b : List (List ℚ)), a.length ≤ b.length →
      (List.zipWith (fun c e => EChar.mk c e) a b).map EChar.char = a := by
  intro a
  induction a with
  | nil => intro b _; simp
  | cons x xs ih =>
    intro b hb
    rcases b with _ | ⟨y, ys⟩
    · simp at hb
    · simp only [List.zipWith_cons_cons, List.map_cons]
      rw [ih ys (by simpa using hb)]

lemma updateAllCenters_length (sqrtq : ℚ → ℚ) (τ : ℚ) (chars centers : List EChar) :
    (updateAllCenters sqrtq τ chars centers).length = centers.length := by
  simp [updateAllCenters]

lemma iterate_updateAllCenters_length (sqrtq : ℚ → ℚ) (τ : ℚ) (chars : List EChar) :
    ∀ (n : ℕ) (cs : List EChar),
      ((fun c2 => updateAllCenters sqrtq τ chars c2)^[n] cs).length = cs.length := by
  intro n
  induction n with
  | zero => intro cs; simp
  | succ m ih =>
    intro cs
    rw [Function.iterate_succ_apply]
    rw [ih (updateAllCenters sqrtq τ chars cs)]
    exact updateAllCenters_length sqrtq τ chars cs

/-- With injective ids over the embedded respondents, a respondent's id
occurs among the member ids of assignment value `i` exactly when that
respondent is assigned `i`. -/
lemma mem_assigned_ids_iff (f2 : EChar → ℤ) (vchars : List EChar)
    (hinj : ∀ e1 ∈ vchars, ∀ e2 ∈ vchars, e1.char.id = e2.char.id → e1 = e2)
    (e0 : EChar) (he0 : e0 ∈ vchars) (i : ℤ) :
    (e0.char.id ∈ (vchars.filter (fun e => f2 e = i)).map (fun e => e.char.id)) ↔
      f2 e0 = i := by
  constructor
  · intro hmem
    rw [List.mem_map] at hmem
    obtain ⟨e, he, heid⟩ := hmem
    rw [List.mem_filter] at he
    have heq : e = e0 := hinj e he.1 e0 he0 heid
    have hfe : f2 e = i := by simpa using he.2
    rw [← heq]
    exact hfe
  · intro hf
    rw [List.mem_map]
    exact ⟨e0, List.mem_filter.mpr ⟨he0, by simpa using hf⟩, rfl⟩

/-- Core partition fact behind C1: with injective ids, each embedded
respondent's id is counted exactly once across the per-index cluster
summaries (built over `range K`, empty clusters omitted) plus the outlier
member list — in the summary of its assigned index when the assignment is a
valid index, in the outlier list when the assignment is `-1`. -/
lemma countP_partition (f2 : EChar → ℤ) (vchars : List EChar) (K : ℕ)
    (mkRec : ℕ → ClusterRec)
    (hmk : ∀ i : ℕ, (mkRec i).character_ids =
      (vchars.filter (fun e => f2 e = (i : ℤ))).map (fun e => e.char.id))
    (hinj : ∀ e1 ∈ vchars, ∀ e2 ∈ vchars, e1.char.id = e2.char.id → e1 = e2)
    (e0 : EChar) (he0 : e0 ∈ vchars)
    (hrange : f2 e0 = -1 ∨ (0 ≤ f2 e0 ∧ f2 e0 < (K : ℤ))) :
    ((List.range K).filterMap (fun (i : ℕ) =>
        if vchars.filter (fun e => f2 e = (i : ℤ)) = [] then none
        else some (mkRec i))).countP (fun cl => e0.char.id ∈ cl.character_ids) +
      (if e0.char.id ∈ (vchars.filter (fun e => f2 e = -1)).map (fun e => e.char.id)
        then 1 else 0) = 1 := by
  rw [List.countP_filterMap]
  rcases hrange with hout | ⟨hge, hlt⟩
  · have hmem : e0.char.id ∈ (vchars.filter (fun e => f2 e = -1)).map
        (fun e => e.char.id) :=
      (mem_assigned_ids_iff f2 vchars hinj e0 he0 (-1)).mpr hout
    rw [if_pos hmem]
    have hcount : ((List.range K).countP (fun (i : ℕ) =>
        (((if vchars.filter (fun e => f2 e = (i : ℤ)) = [] then none
          else some (mkRec i)).map
            (fun cl => decide (e0.char.id ∈ cl.character_ids))).getD false))) = 0 := by
      rw [List.countP_eq_zero]
      intro i _
      by_cases hm : vchars.filter (fun e => f2 e = (i : ℤ)) = []
      · rw [if_pos hm]
        simp
      · rw [if_neg hm]
        simp only [Option.map_some', Option.getD_some, decide_eq_true_eq]
        rw [hmk i, mem_assigned_ids_iff f2 vchars hinj e0 he0]
        omega
    rw [hcount]
  · have hi0 : ((f2 e0).toNat : ℤ) = f2 e0 := Int.toNat_of_nonneg hge
    have hi0K : (f2 e0).toNat < K := by omega
    have hnotmem : ¬ e0.char.id ∈ (vchars.filter (fun e => f2 e = -1)).map
        (fun e => e.char.id) := by
      rw [mem_assigned_ids_iff f2 vchars hinj e0 he0]
      omega
    rw [if_neg hnotmem, Nat.add_zero]
    trans ((List.range K).countP (fun i => i == (f2 e0).toNat))
    · apply List.countP_congr
      intro i _
      constructor
      · intro h
        by_cases hm : vchars.filter (fun e => f2 e = (i : ℤ)) = []
        · rw [if_pos hm] at h
          simp at h
        · rw [if_neg hm] at h
          simp only [Option.map_some', Option.getD_some, decide_eq_true_eq] at h
          rw [hmk i, mem_assigned_ids_iff f2 vchars hinj e0 he0] at h
          simp only [beq_iff_eq]
          omega
      · intro h
        have hii : i = (f2 e0).toNat := by simpa using h
        have hm : ¬ vchars.filter (fun e => f2 e = (i : ℤ)) = [] := by
          intro hm
          have hmem2 : e0 ∈ vchars.filter (fun e => f2 e = (i : ℤ)) :=
            List.mem_filter.mpr ⟨he0, by
              simp only [decide_eq_true_eq]
              rw [hii]
              exact hi0.symm⟩
          rw [hm] at hmem2
          exact absurd hmem2 (List.not_mem_nil _)
        rw [if_neg hm]
        simp only [Option.map_some', Option.getD_some, decide_eq_true_eq]
        rw [hmk i, mem_assigned_ids_iff f2 vchars hinj e0 he0]
        omega
    · rw [← List.count_eq_countP]
      exact List.count_eq_one_of_mem (List.nodup_range K) (List.mem_range.mpr hi0K)

/-- Counterpart of `countP_partition` for an id that belongs to no embedded
respondent: it occurs in no cluster summary and not among the outliers. -/
lemma countP_partition_zero (f2 : EChar → ℤ) (vchars : List EChar) (K : ℕ)
    (mkRec : ℕ → ClusterRec)
    (hmk : ∀ i : ℕ, (mkRec i).character_ids =
      (vchars.filter (fun e => f2 e = (i : ℤ))).map (fun e => e.char.id))
    (x : Int) (hx : ∀ e ∈ vchars, e.char.id ≠ x) :
    ((List.range K).filterMap (fun (i : ℕ) =>
        if vchars.filter (fun e => f2 e = (i : ℤ)) = [] then none
        else some (mkRec i))).countP (fun cl => x ∈ cl.character_ids) +
      (if x ∈ (vchars.filter (fun e => f2 e = -1)).map (fun e => e.char.id)
        then 1 else 0) = 0 := by
  have hnm : ∀ (i : ℤ),
      ¬ x ∈ (vchars.filter (fun e => f2 e = i)).map (fun e => e.char.id) := by
    intro i hmem
    rw [List.mem_map] at hmem
    obtain ⟨e, he, heid⟩ := hmem
    exact hx e (List.mem_filter.mp he).1 heid
  rw [List.countP_filterMap, if_neg (hnm (-1)), Nat.add_zero, List.countP_eq_zero]
  intro i _
  by_cases hm : vchars.filter (fun e => f2 e = (i : ℤ)) = []
  · rw [if_pos hm]
    simp
  · rw [if_neg hm]
    simp only [Option.map_some', Option.getD_some, decide_eq_true_eq]
    rw [hmk i]
    exact hnm (i : ℤ)

/-- Bridge: the sorted cluster summaries of one `cluster_answers` run (final
assignment taken against the centers after four update rounds, centers
sampled with the `random.sample` length contract) together with the outlier
list count each embedded respondent's id exactly once. -/
lemma sorted_partition_assign (sqrtq : ℚ → ℚ) (τ : ℚ) (hτ : -1 < τ)
    (vchars centers0 : List EChar) (K : ℕ) (hlen : centers0.length = K)
    (mkRec : ℕ → ClusterRec)
    (hmk : ∀ i : ℕ, (mkRec i).character_ids =
      (vchars.filter (fun e => assignChar sqrtq τ
        ((fun cs => updateAllCenters sqrtq τ vchars cs)^[4] centers0) e
          = (i : ℤ))).map (fun e => e.char.id))
    (hinj : ∀ e1 ∈ vchars, ∀ e2 ∈ vchars, e1.char.id = e2.char.id → e1 = e2)
    (e0 : EChar) (he0 : e0 ∈ vchars) :
    (sortClustersDesc ((List.range K).filterMap (fun (i : ℕ) =>
        if vchars.filter (fun e => assignChar sqrtq τ
            ((fun cs => updateAllCenters sqrtq τ vchars cs)^[4] centers0) e = (i : ℤ)) = []
        then none
        else some (mkRec i)))).countP (fun cl => e0.char.id ∈ cl.character_ids) +
      (if e0.char.id ∈ (vchars.filter (fun e => assignChar sqrtq τ
          ((fun cs => updateAllCenters sqrtq τ vchars cs)^[4] centers0) e = -1)).map
          (fun e => e.char.id) then 1 else 0) = 1 := by
  have hlenc : ((fun cs => updateAllCenters sqrtq τ vchars cs)^[4] centers0).length = K := by
    rw [iterate_updateAllCenters_length]
    exact hlen
  rw [List.Perm.countP_eq _ (sortClustersDesc_perm _)]
  refine countP_partition _ vchars K mkRec hmk hinj e0 he0 ?_
  rcases assignChar_cases sqrtq τ
      ((fun cs => updateAllCenters sqrtq τ vchars cs)^[4] centers0) e0 hτ with h | h
  · exact Or.inl h
  · right
    rw [hlenc] at h
    exact h

/-- Bridge: the sorted cluster summaries plus the outlier list contain no id
that belongs to no embedded respondent. -/
lemma sorted_partition_zero (f2 : EChar → ℤ) (vchars : List EChar) (K : ℕ)
    (mkRec : ℕ → ClusterRec)
    (hmk : ∀ i : ℕ, (mkRec i).character_ids =
      (vchars.filter (fun e => f2 e = (i : ℤ))).map (fun e => e.char.id))
    (x : Int) (hx : ∀ e ∈ vchars, e.char.id ≠ x) :
    (sortClustersDesc ((List.range K).filterMap (fun (i : ℕ) =>
        if vchars.filter (fun e => f2 e = (i : ℤ)) = [] then none
        else some (mkRec i)))).countP (fun cl => x ∈ cl.character_ids) +
      (if x ∈ (vchars.filter (fun e => f2 e = -1)).map (fun e => e.char.id)
        then 1 else 0) = 0 := by
  rw [List.Perm.countP_eq _ (sortClustersDesc_perm _)]
  exact countP_partition_zero f2 vchars K mkRec hmk x hx

/-! ## C1 -/

/-- C1: `cluster_answers` partitions the valid respondents.  Under the
embedding-provider contract (one embedding per text, in order), the
`random.sample` contract (exactly the requested number of centers), unique
respondent ids (a data-model invariant of the system) and a similarity
threshold above `-1` (the default is `0.6`), every respondent whose
`short_answer` is non-empty after stripping whitespace appears in the
`character_ids` of exactly one place — one returned cluster or the outlier
set — and every respondent with an empty stripped answer appears in
neither. -/
theorem cluster_answers_partition (sqrtq : ℚ → ℚ)
    (embedFn : List String → List (List ℚ)) (sampleAuto : ℕ → List EChar)
    (sampleMain : List EChar → ℕ → List EChar)
    (characters_data : List Character) (num_clusters : Option ℕ) (τ : ℚ)
    (hemb : ∀ ts : List String, (embedFn ts).length = ts.length)
    (hsamp : ∀ (l2 : List EChar) (n : ℕ), (sampleMain l2 n).length = n)
    (hτ : -1 < τ)
    (hnd : (characters_data.map Character.id).Nodup)
    (c : Character) (hc : c ∈ characters_data) :
    ((cluster_answers sqrtq embedFn sampleAuto sampleMain characters_data
        num_clusters τ).clusters.countP (fun cl => c.id ∈ cl.character_ids)) +
      (if c.id ∈ (cluster_answers sqrtq embedFn sampleAuto sampleMain
          characters_data num_clusters τ).outliers.character_ids then 1 else 0) =
      (if pyStrip c.short_answer ≠ "" then 1 else 0) := by
  by_cases hv : characters_data.filter (fun c2 => pyStrip c2.short_answer ≠ "") = []
  · have hcinv : ¬ pyStrip c.short_answer ≠ "" := by
      intro hval
      have hmem2 : c ∈ characters_data.filter (fun c2 => pyStrip c2.short_answer ≠ "") :=
        List.mem_filter.mpr ⟨hc, by simpa using hval⟩
      rw [hv] at hmem2
      exact absurd hmem2 (List.not_mem_nil c)
    simp only [cluster_answers]
    rw [if_pos hv, if_neg hcinv]
    simp
  · simp only [cluster_answers]
    rw [if_neg hv]
    set valid := characters_data.filter (fun c2 => pyStrip c2.short_answer ≠ "")
      with hvalid_def
    set embs := embedFn (valid.map (fun c2 => c2.short_answer)) with hembs_def
    set vchars := List.zipWith (fun c2 e => EChar.mk c2 e) valid embs with hvchars_def
    have hlenv : embs.length = valid.length := by
      rw [hembs_def, hemb]
      simp
    have hmapchar : vchars.map EChar.char = valid := by
      rw [hvchars_def]
      exact zipWith_mk_map_char valid embs (le_of_eq hlenv.symm)
    have hvalnodup : (valid.map Character.id).Nodup := by
      rw [hvalid_def]
      exact List.Nodup.sublist ((List.filter_sublist characters_data).map Character.id) hnd
    have hvidnodup : (vchars.map (fun e => e.char.id)).Nodup := by
      have hmm2 : vchars.map (fun e => e.char.id) =
          (vchars.map EChar.char).map Character.id := by
        rw [List.map_map]
        rfl
      rw [hmm2, hmapchar]
      exact hvalnodup
    have hinj : ∀ e1 ∈ vchars, ∀ e2 ∈ vchars, e1.char.id = e2.char.id → e1 = e2 :=
      fun e1 h1 e2 h2 heq => List.inj_on_of_nodup_map hvidnodup h1 h2 heq
    by_cases hcval : pyStrip c.short_answer ≠ ""
    · rw [if_pos hcval]
      have hcv : c ∈ valid := by
        rw [hvalid_def]
        exact List.mem_filter.mpr ⟨hc, by simpa using hcval⟩
      have hcv2 : c ∈ vchars.map EChar.char := by
        rw [hmapchar]
        exact hcv
      obtain ⟨e0, he0, hche⟩ := List.mem_map.mp hcv2
      dsimp only
      rw [← hche]
      refine sorted_partition_assign sqrtq τ hτ _ _ _ ?_ _ ?_ hinj e0 he0
      · exact hsamp _ _
      · intro i
        rfl
    · rw [if_neg hcval]
      have hnid : ∀ e ∈ vchars, e.char.id ≠ c.id := by
        intro e he heq
        have hechar : e.char ∈ valid := by
          rw [← hmapchar]
          exact List.mem_map.mpr ⟨e, he, rfl⟩
        have hecd : e.char ∈ characters_data ∧ pyStrip e.char.short_answer ≠ "" := by
          rw [hvalid_def] at hechar
          have hmf := List.mem_filter.mp hechar
          exact ⟨hmf.1, by simpa using hmf.2⟩
        have hec : e.char = c := List.inj_on_of_nodup_map hnd hecd.1 hc heq
        rw [hec] at hecd
        exact hcval hecd.2
      dsimp only
      exact sorted_partition_zero _ vchars _ _ (fun _ => rfl) c.id hnid

theorem cluster_answers_partition_witness :
    ((cluster_answers (fun _ => 0) (fun ts => ts.map (fun _ => []))
        (fun _ => []) (fun _ n => List.replicate n dfltEChar)
        [⟨1, "a", 1⟩] (some 1) 1).clusters.countP
      (fun cl => (1 : Int) ∈ cl.character_ids)) +
      (if (1 : Int) ∈ (cluster_answers (fun _ => 0) (fun ts => ts.map (fun _ => []))
          (fun _ => []) (fun _ n => List.replicate n dfltEChar)
          [⟨1, "a", 1⟩] (some 1) 1).outliers.character_ids then 1 else 0) =
      (if pyStrip "a" ≠ "" then 1 else 0) :=
  cluster_answers_partition (fun _ => 0) (fun ts => ts.map (fun _ => []))
    (fun _ => []) (fun _ n => List.replicate n dfltEChar)
    [⟨1, "a", 1⟩] (some 1) 1
    (fun ts => by simp) (fun l2 n => by simp) (by decide) (by decide)
    ⟨1, "a", 1⟩ (by decide)
